import Mathlib

/-!
Verification development for the TechParser incremental feature-frequency
classifier (`TechParser/classifier.py`) and its persistence glue
(`TechParser/db_functions.py`).

Shallow embedding conventions:
* A Python `dict`/`Counter` keyed by features or categories is modelled by its
  value semantics: a total function returning `0` for absent keys (Python code
  only reads these maps through `get(key, 0)`-style access, key iteration over
  positive entries, or full overwrites, so the value semantics is faithful).
  Where key *presence* is observable (the result of `classify_features`), the
  key list is modelled explicitly alongside the value function.
* Python `Counter.__iadd__`/`__isub__` (`+=`/`-=` on counters) update entries
  and then drop every non-positive entry (`_keep_positive`); value-wise each
  entry becomes `max (old ± delta) 0`.  This is modelled exactly.
* Integer counts are `ℤ`; frequencies (true division, `from __future__ import
  division`) are `ℚ`.  A Python `ZeroDivisionError` is modelled by returning
  `none` from the operation that would raise.
* External resources of the normalizer (the nltk Porter stemmer instance, the
  nltk English stopword list, the irregular-word table, the HTML entity table)
  are parameters of the embedded functions; the code loads them from outside
  the repository.
-/

abbrev Feature := String
abbrev Category := String

/-- Items of a Python dict/Counter mapping features to integer counts
(`FeatureCounts` in the spec); one `(key, value)` pair per entry. -/
abbrev FeatureCounts := List (Feature × ℤ)

/-- The signed number of occurrences of feature `f` recorded in the items of a
`FeatureCounts` (0 for an absent key; duplicate keys, impossible for a real
dict, would be summed). -/
def itemsSum (fc : FeatureCounts) (f : Feature) : ℤ :=
  (fc.map (fun kv => if kv.1 = f then kv.2 else 0)).sum

/-- Total number of occurrences of feature `f` across a batch of samples. -/
def occTotal (l : List FeatureCounts) (f : Feature) : ℤ :=
  (l.map (fun fc => itemsSum fc f)).sum

/-- Python `Counter.__iadd__`: for every item of `fc`, add its count to the
entry, then keep only positive entries (value-wise: clamp at 0). -/
def counterIadd (c : Feature → ℤ) (fc : FeatureCounts) : Feature → ℤ :=
  let updated := fc.foldl (fun acc kv => Function.update acc kv.1 (acc kv.1 + kv.2)) c
  fun x => if 0 < updated x then updated x else 0

/-- Python `Counter.__isub__`: for every item of `fc`, subtract its count from
the entry, then keep only positive entries (value-wise: clamp at 0). -/
def counterIsub (c : Feature → ℤ) (fc : FeatureCounts) : Feature → ℤ :=
  let updated := fc.foldl (fun acc kv => Function.update acc kv.1 (acc kv.1 - kv.2)) c
  fun x => if 0 < updated x then updated x else 0

/-- State of `TextClassifier` (`classifier.py`): per category a durable
frequency table `counts` with its `sample_counts`, and the staged
`_counts_change` / `_sample_counts_change` deltas (modelled without the
leading underscore). -/
structure TextClassifier where
  categories : List Category
  counts : Category → Feature → ℚ
  sample_counts : Category → ℤ
  counts_change : Category → Feature → ℤ
  sample_counts_change : Category → ℤ

/-- `TextClassifier.__init__`: every per-category table starts empty and every
counter at zero. -/
def TextClassifier.init (cats : List Category) : TextClassifier :=
  { categories := cats
    counts := fun _ _ => 0
    sample_counts := fun _ => 0
    counts_change := fun _ _ => 0
    sample_counts_change := fun _ => 0 }

/-- `TextClassifier.add_sample`: `self._counts_change[category] += features;
self._sample_counts_change[category] += 1`. -/
def TextClassifier.add_sample (self : TextClassifier) (features : FeatureCounts)
    (category : Category) : TextClassifier :=
  { self with
    counts_change :=
      Function.update self.counts_change category (counterIadd (self.counts_change category) features)
    sample_counts_change :=
      Function.update self.sample_counts_change category (self.sample_counts_change category + 1) }

/-- `TextClassifier.remove_sample`: `self._counts_change[category] -= features;
self._sample_counts_change[category] -= 1`. -/
def TextClassifier.remove_sample (self : TextClassifier) (features : FeatureCounts)
    (category : Category) : TextClassifier :=
  { self with
    counts_change :=
      Function.update self.counts_change category (counterIsub (self.counts_change category) features)
    sample_counts_change :=
      Function.update self.sample_counts_change category (self.sample_counts_change category - 1) }

/-- `TextClassifier.add_samples`: fold `add_sample` over a list of
`(features, category)` pairs. -/
def TextClassifier.add_samples (self : TextClassifier)
    (samples : List (FeatureCounts × Category)) : TextClassifier :=
  samples.foldl (fun s p => s.add_sample p.1 p.2) self

/-- One iteration of the `apply_changes` loop for a single category.
`r = old_count / new_sample_count` raises `ZeroDivisionError` when
`new_sample_count == 0` (modelled as `none`); otherwise every existing entry is
rescaled by `r` when `r != 0` and every staged delta `v` contributes
`v / new_sample_count`. -/
def applyCategory (s : TextClassifier) (category : Category) : Option TextClassifier :=
  let old_count := s.sample_counts category
  let new_sample_count := old_count + s.sample_counts_change category
  if new_sample_count = 0 then
    none
  else
    let r : ℚ := (old_count : ℚ) / (new_sample_count : ℚ)
    some { s with
      counts := Function.update s.counts category (fun k =>
        (if r ≠ 0 then s.counts category k * r else s.counts category k)
          + (s.counts_change category k : ℚ) / (new_sample_count : ℚ))
      counts_change := Function.update s.counts_change category (fun _ => 0)
      sample_counts := Function.update s.sample_counts category new_sample_count
      sample_counts_change := Function.update s.sample_counts_change category 0 }

/-- The `for category, changes in self._counts_change.items()` loop of
`apply_changes`, category by category; an exception aborts the whole call. -/
def applyChangesGo : List Category → TextClassifier → Option TextClassifier
  | [], s => some s
  | c :: rest, s =>
    match applyCategory s c with
    | none => none
    | some s' => applyChangesGo rest s'

/-- `TextClassifier.apply_changes`: commit the staged deltas of every
category. -/
def TextClassifier.apply_changes (self : TextClassifier) : Option TextClassifier :=
  applyChangesGo self.categories self

/-- `TextClassifier.classify_feature`: build the per-category `feature_counts`
dict and its running `sum_`; if `sum_ == 0` return the uniform value
`1.0 / len(feature_counts)` for every key (a `ZeroDivisionError`, hence
`none`, when there are no categories), otherwise overwrite each key of the
`probabilities` dict (initialised to `1.0`) with `count / sum_`. -/
def TextClassifier.classify_feature (self : TextClassifier) (feature : Feature) :
    Option (Category → ℚ) :=
  let feature_counts : List (Category × ℚ) :=
    self.categories.map (fun category => (category, self.counts category feature))
  let sum_ : ℚ := (feature_counts.map (fun kv => kv.2)).sum
  if sum_ = 0 then
    if self.categories.length = 0 then none
    else some (fun _ => 1 / (self.categories.length : ℚ))
  else
    some (fun c =>
      match feature_counts.lookup c with
      | some i => i / sum_
      | none => 1)

/-- Result of `classify_features`: a Python `Counter`, with its key list (the
keys that were actually inserted) and its value function (0 for absent keys). -/
structure ClassifyResult where
  keys : List Category
  val : Category → ℚ

/-- The `for feature, count in features.items()` loop of `classify_features`:
accumulates `length`, the running totals (each feature's distribution added
`count` times, i.e. `max count 0` times via `range(count)`), and whether the
result Counter has received any key yet. -/
def classifyLoop (self : TextClassifier) :
    List (Feature × ℤ) → ℤ → (Category → ℚ) → Bool → Option (ℤ × (Category → ℚ) × Bool)
  | [], length, result, touched => some (length, result, touched)
  | (feature, count) :: rest, length, result, touched =>
    match self.classify_feature feature with
    | none => none
    | some probabilities =>
      classifyLoop self rest (length + count)
        (fun k => result k + ((max count 0 : ℤ) : ℚ) * probabilities k)
        (touched || decide (0 < count))

/-- `TextClassifier.classify_features`: run the accumulation loop, then divide
every key of the result Counter by `length`.  When the result Counter is empty
the division loop body never runs (so an empty input returns an empty
Counter); when it is non-empty and `length == 0` the division raises
`ZeroDivisionError` (`none`). -/
def TextClassifier.classify_features (self : TextClassifier) (features : FeatureCounts) :
    Option ClassifyResult :=
  match classifyLoop self features 0 (fun _ => 0) false with
  | none => none
  | some (length, result, touched) =>
    if touched then
      if length = 0 then none
      else some ⟨self.categories, fun k => result k / (length : ℚ)⟩
    else some ⟨[], fun _ => 0⟩

/-- Spec-side definition (from the spec's words, §4.4): the per-feature
distribution — each category's share `count/sum` of the feature's total
observed frequency, or the uniform `1/|categories|` default when the feature
was never seen. -/
def specFeatureDist (self : TextClassifier) (feature : Feature) (c : Category) : ℚ :=
  let s := (self.categories.map (fun d => self.counts d feature)).sum
  if s = 0 then 1 / (self.categories.length : ℚ)
  else self.counts c feature / s

/-- Spec-side definition (from the spec's words, §4.4): the occurrence-weighted
vote average — each feature's per-feature distribution accumulated `count`
times, divided by the total number of feature occurrences. -/
def voteAverage (self : TextClassifier) (features : FeatureCounts) (c : Category) : ℚ :=
  (features.map (fun kv => (kv.2 : ℚ) * specFeatureDist self kv.1 c)).sum
    / ((features.map (fun kv => kv.2)).sum : ℚ)

/-! ### Text normalizer (`prepare_words` and its regex passes)

The six compiled regular expressions of `TextClassifier.regular_expressions`,
the entity regex `&#?\w+;` and the tokenizer `\w+\'\w{1,2}|\w+` are embedded
as left-to-right scanners over the character list, reproducing `re.sub` /
`re.findall` semantics (leftmost matches, non-overlapping, scan resumes after
each match, word boundaries computed on the original text).  Inputs of the
claims are ASCII, so `\w` is modelled as ASCII alphanumeric or underscore. -/

/-- The apostrophe character. -/
def apos : Char := Char.ofNat 39

/-- Python `\w` on ASCII text: alphanumeric or underscore. -/
def isWordChar (c : Char) : Bool := c.isAlphanum || c = '_'

/-- A word boundary sits between the previous (word) character and this
remainder: the remainder starts with a non-word character or is empty. -/
def atBoundary : List Char → Bool
  | [] => true
  | c :: _ => !isWordChar c

/-- Pass 1, `\bain\'t\b` → `''`: drop the literal `ain't` at word boundaries.
`prev` records whether the previous original character is a word character.
The first argument is recursion fuel, always instantiated with the length of
the text (every step consumes at least one character). -/
def subAint : Nat → List Char → Bool → List Char
  | 0, l, _ => l
  | _ + 1, [], _ => []
  | fuel + 1, c :: rest, prev =>
    match c, rest with
    | 'a', 'i' :: 'n' :: q :: 't' :: rest2 =>
      if !prev && q = apos && atBoundary rest2 then subAint fuel rest2 true
      else c :: subAint fuel rest (isWordChar c)
    | _, _ => c :: subAint fuel rest (isWordChar c)

/-- Pass 2, `\b(?P<g1>\w+)\'(s|m|d|ve|re)\b` → `\g<g1>`: drop an
apostrophe-plus-suffix directly following a word character that is still
usable as the end of the `\w+` group (`can`; characters consumed by an
earlier match are not usable).  Fuel as in `subAint`. -/
def subPoss : Nat → List Char → Bool → List Char
  | 0, l, _ => l
  | _ + 1, [], _ => []
  | fuel + 1, c :: rest, can =>
    if c = apos && can then
      match rest with
      | [] => c :: subPoss fuel [] false
      | s :: rest2 =>
        if (s = 's' || s = 'm' || s = 'd') && atBoundary rest2 then subPoss fuel rest2 false
        else
          match s, rest2 with
          | 'v', 'e' :: rest3 =>
            if atBoundary rest3 then subPoss fuel rest3 false
            else c :: subPoss fuel rest false
          | 'r', 'e' :: rest3 =>
            if atBoundary rest3 then subPoss fuel rest3 false
            else c :: subPoss fuel rest false
          | _, _ => c :: subPoss fuel rest false
    else c :: subPoss fuel rest (isWordChar c)

/-- Pass 3, `\b(?P<g1>\w+)n\'t\b` → `\g<g1>`: drop a trailing `n't` whose `n`
directly follows a usable word character (the non-empty group).  Fuel as in
`subAint`. -/
def subNt : Nat → List Char → Bool → List Char
  | 0, l, _ => l
  | _ + 1, [], _ => []
  | fuel + 1, c :: rest, can =>
    if c = 'n' && can then
      match rest with
      | q :: 't' :: rest2 =>
        if q = apos && atBoundary rest2 then subNt fuel rest2 false
        else c :: subNt fuel rest (isWordChar c)
      | _ => c :: subNt fuel rest (isWordChar c)
    else c :: subNt fuel rest (isWordChar c)

/-- Emit a completed word-character run for the stopword pass: dropped when it
equals one of the stopwords, kept otherwise. -/
def stopRun (stopwords : List String) (accRev : List Char) (tail : List Char) : List Char :=
  match accRev with
  | [] => tail
  | _ :: _ =>
    let run := accRev.reverse
    if stopwords.any (fun w => w.toList = run) then tail else run ++ tail

/-- Pass 4, `\b(stopword1|stopword2|...)\b` → `''`: every maximal
word-character run equal to a stopword is removed (the nltk stopwords are
plain word-character strings, so a whole-word match is exactly a full run). -/
def subStop (stopwords : List String) : List Char → List Char → List Char
  | accRev, [] => stopRun stopwords accRev []
  | accRev, c :: rest =>
    if isWordChar c then subStop stopwords (c :: accRev) rest
    else stopRun stopwords accRev (c :: subStop stopwords [] rest)

/-- Pass 5, `<.*?>` → `' '`: a `<` with a later `>` and no intervening newline
is replaced, with everything between, by one space; `pending` buffers the
(reversed) characters of an open candidate match, flushed verbatim when the
candidate fails (newline or end of input). -/
def subTags : Option (List Char) → List Char → List Char
  | none, [] => []
  | some pending, [] => pending.reverse
  | none, c :: rest =>
    if c = '<' then subTags (some [c]) rest
    else c :: subTags none rest
  | some pending, c :: rest =>
    if c = '>' then ' ' :: subTags none rest
    else if c = '\n' then pending.reverse ++ c :: subTags none rest
    else subTags (some (c :: pending)) rest

/-- Python `int(s)` on a `\w+` substring (digits only; anything else raises
`ValueError`). -/
def parseDec (l : List Char) : Option ℕ :=
  if !l.isEmpty && l.all Char.isDigit then
    some (l.foldl (fun n c => 10 * n + (c.toNat - 48)) 0)
  else none

/-- Hexadecimal value of one character. -/
def hexVal (c : Char) : Option ℕ :=
  if c.isDigit then some (c.toNat - 48)
  else if 'a' ≤ c && c ≤ 'f' then some (c.toNat - 87)
  else if 'A' ≤ c && c ≤ 'F' then some (c.toNat - 55)
  else none

/-- Python `int(s, 16)` on a `\w+` substring. -/
def parseHex (l : List Char) : Option ℕ :=
  if l.isEmpty then none
  else l.foldl (fun acc c =>
    match acc, hexVal c with
    | some n, some v => some (16 * n + v)
    | _, _ => none) (some 0)

/-- Python `chr` restricted to codepoints representable as a Lean `Char`
(Python additionally accepts surrogates; no claim depends on those). -/
def pyChr (n : ℕ) : Option Char :=
  if n < 0xd800 || (0xe000 ≤ n && n ≤ 0x10ffff) then some (Char.ofNat n) else none

/-- `fixup` of `TextClassifier.unescape` applied to a matched `&#?\w+;`:
`&#NNN;`/`&#xHHH;` decode via `chr` (a `ValueError` leaves the match text
unchanged), named references are looked up in the entity table (a `KeyError`
leaves the match text unchanged). -/
def entityFixup (entities : List (String × ℕ)) (hash : Bool) (body : List Char) : List Char :=
  let matched := '&' :: ((if hash then '#' :: body else body) ++ [';'])
  if hash then
    let parsed :=
      match body with
      | 'x' :: hexBody => parseHex hexBody
      | _ => parseDec body
    match parsed with
    | some n =>
      match pyChr n with
      | some ch => [ch]
      | none => matched
    | none => matched
  else
    match entities.lookup (String.mk body) with
    | some n =>
      match pyChr n with
      | some ch => [ch]
      | none => matched
    | none => matched

/-- `unicode_chr_regex = &#?\w+;` substitution: state machine over the text;
`none` = outside any candidate; `some (hash, bodyRev)` = after `&` (and after
`#` when `hash`), collecting word characters. -/
def unescapeCore (entities : List (String × ℕ)) :
    Option (Bool × List Char) → List Char → List Char
  | none, [] => []
  | some (hash, bodyRev), [] => '&' :: ((if hash then ['#'] else []) ++ bodyRev.reverse)
  | none, c :: rest =>
    if c = '&' then unescapeCore entities (some (false, [])) rest
    else c :: unescapeCore entities none rest
  | some (hash, bodyRev), c :: rest =>
    if c = ';' && !bodyRev.isEmpty then
      entityFixup entities hash bodyRev.reverse ++ unescapeCore entities none rest
    else if c = '#' && !hash && bodyRev.isEmpty then
      unescapeCore entities (some (true, [])) rest
    else if isWordChar c then
      unescapeCore entities (some (hash, c :: bodyRev)) rest
    else
      let pre := '&' :: ((if hash then ['#'] else []) ++ bodyRev.reverse)
      if c = '&' then pre ++ unescapeCore entities (some (false, [])) rest
      else pre ++ c :: unescapeCore entities none rest

/-- `TextClassifier.unescape`; the entity table (the external
`htmlentitydefs.name2codepoint`) is a parameter. -/
def TextClassifier.unescape (entities : List (String × ℕ)) (text : String) : String :=
  String.mk (unescapeCore entities none text.toList)

/-- `TextClassifier.apply_regexes`: the six compiled rewrites in source order.
The stopword list (the external `nltk.corpus.stopwords.words('english')`) is a
parameter.  `\d+` → `''` removes exactly the digit characters, modelled as a
filter. -/
def TextClassifier.apply_regexes (stopwords : List String) (text : String) : String :=
  let l0 := text.toList
  let l1 := subAint l0.length l0 false
  let l2 := subPoss l1.length l1 false
  let l3 := subNt l2.length l2 false
  let l4 := subStop stopwords [] l3
  let l5 := subTags none l4
  String.mk (l5.filter (fun c => !c.isDigit))

/-- `findall` of `tokenize_regex = \w+\'\w{1,2}|\w+`: scan left to right; a
maximal word run optionally takes an apostrophe plus one or two further word
characters (first alternative preferred, greedy); `accRev` holds the reversed
current word run.  Fuel as in `subAint`. -/
def tokenizeCore : Nat → List Char → List Char → List (List Char)
  | 0, accRev, _ => if accRev.isEmpty then [] else [accRev.reverse]
  | _ + 1, accRev, [] => if accRev.isEmpty then [] else [accRev.reverse]
  | fuel + 1, accRev, c :: rest =>
    if isWordChar c then tokenizeCore fuel (c :: accRev) rest
    else if c = apos && !accRev.isEmpty then
      match rest with
      | [] => [accRev.reverse]
      | w1 :: rest2 =>
        if isWordChar w1 then
          match rest2 with
          | [] => [accRev.reverse ++ [c, w1]]
          | w2 :: rest3 =>
            if isWordChar w2 then
              (accRev.reverse ++ [c, w1, w2]) :: tokenizeCore fuel [] rest3
            else (accRev.reverse ++ [c, w1]) :: tokenizeCore fuel [] rest2
        else accRev.reverse :: tokenizeCore fuel [] rest
    else if accRev.isEmpty then tokenizeCore fuel [] rest
    else accRev.reverse :: tokenizeCore fuel [] rest

/-- `TextClassifier.tokenize`. -/
def TextClassifier.tokenize (text : String) : List String :=
  (tokenizeCore text.toList.length [] text.toList).map String.mk

/-- Scanner for `pySplit`: collect maximal non-whitespace runs. -/
def pySplitCore : List Char → List Char → List String
  | accRev, [] => if accRev.isEmpty then [] else [String.mk accRev.reverse]
  | accRev, c :: rest =>
    if c.isWhitespace then
      if accRev.isEmpty then pySplitCore [] rest
      else String.mk accRev.reverse :: pySplitCore [] rest
    else pySplitCore (c :: accRev) rest

/-- Python `str.split()` with no argument: split on whitespace runs,
discarding empty pieces. -/
def pySplit (s : String) : List String := pySplitCore [] s.toList

/-- `TextClassifier.replace_irregular_words`: replace each word by its entry
in the irregular-word table (default: itself), split the replacement on
whitespace, and stem every resulting token.  The stemmer (the shared nltk
`PorterStemmer` instance) and the table (loaded by `load_irregular_words`
from the external `irregular_words.csv`) are parameters. -/
def TextClassifier.replace_irregular_words (stem : String → String)
    (replacements : List (String × String)) (words : List String) : List String :=
  words.flatMap (fun i => (pySplit ((replacements.lookup i).getD i)).map stem)

/-- Python `str.lower` (ASCII; the claims' inputs are ASCII). -/
def pyLower (s : String) : String := String.mk (s.toList.map Char.toLower)

/-- `TextClassifier.prepare_words`:
`replace_irregular_words(tokenize(apply_regexes(unescape(text.lower()))))`. -/
def TextClassifier.prepare_words (stem : String → String)
    (replacements : List (String × String)) (stopwords : List String)
    (entities : List (String × ℕ)) (text : String) : List String :=
  TextClassifier.replace_irregular_words stem replacements
    (TextClassifier.tokenize
      (TextClassifier.apply_regexes stopwords
        (TextClassifier.unescape entities (pyLower text))))

/-- `collections.Counter(words)`: one item per distinct word mapping it to its
number of occurrences (the item order of the Python dict — first insertion —
is not observable through any embedded operation). -/
def listCounter (words : List String) : FeatureCounts :=
  words.dedup.map (fun w => (w, (words.count w : ℤ)))

/-- `TextClassifier.prepare_counter`. -/
def TextClassifier.prepare_counter (stem : String → String)
    (replacements : List (String × String)) (stopwords : List String)
    (entities : List (String × ℕ)) (text : String) : FeatureCounts :=
  listCounter (TextClassifier.prepare_words stem replacements stopwords entities text)

/-- An article record, restricted to the two fields the classifier reads. -/
structure Article where
  title : String
  summary : String

/-- `TextClassifier.add_article`:
`add_sample(prepare_counter(title + ' ' + summary), category)`. -/
def TextClassifier.add_article (stem : String → String)
    (replacements : List (String × String)) (stopwords : List String)
    (entities : List (String × ℕ)) (self : TextClassifier) (article : Article)
    (category : Category) : TextClassifier :=
  self.add_sample
    (TextClassifier.prepare_counter stem replacements stopwords entities
      (article.title ++ " " ++ article.summary)) category

/-! ### Persistence glue (`db_functions.py`) -/

/-- What `saveClassifier` persists: the serialized `counts` and
`sample_counts`, modelled by their values. -/
structure SavedModel where
  counts : Category → Feature → ℚ
  sample_counts : Category → ℤ

/-- The `except ValueError` branch of `loadClassifier`: train the received
classifier object on the corpus (`add_article` per record), `apply_changes`
(whose `ZeroDivisionError` aborts the call), then `saveClassifier`. -/
def retrainAndSave (stem : String → String) (replacements : List (String × String))
    (stopwords : List String) (entities : List (String × ℕ))
    (classifier : TextClassifier) (interesting_articles blacklist : List Article) :
    Option (TextClassifier × Option SavedModel) :=
  let c1 := interesting_articles.foldl
    (fun cl a =>
      TextClassifier.add_article stem replacements stopwords entities cl a "interesting")
    classifier
  let c2 := blacklist.foldl
    (fun cl a =>
      TextClassifier.add_article stem replacements stopwords entities cl a "boring") c1
  match c2.apply_changes with
  | none => none
  | some c3 => some (c3, some ⟨c3.counts, c3.sample_counts⟩)

/-- `loadClassifier` (`db_functions.py`).  The persisted blobs are modelled by
their parse results (`none` = absent or `json.loads` raised `ValueError`; the
`get_var` default `''` never parses).  The source assigns the parsed
`classifier.counts` *before* parsing `classifier.sample_counts` inside the
same `try`, so a failure of the second parse retrains the partially updated
object.  The second result component records what `saveClassifier` persisted
(`none` when it was not called). -/
def loadClassifier (stem : String → String) (replacements : List (String × String))
    (stopwords : List String) (entities : List (String × ℕ))
    (countsBlob : Option (Category → Feature → ℚ))
    (sampleCountsBlob : Option (Category → ℤ))
    (interesting_articles blacklist : List Article) :
    Option (TextClassifier × Option SavedModel) :=
  let classifier := TextClassifier.init ["interesting", "boring"]
  match countsBlob with
  | some parsedCounts =>
    let classifier2 := { classifier with counts := parsedCounts }
    match sampleCountsBlob with
    | some parsedSampleCounts =>
      some ({ classifier2 with sample_counts := parsedSampleCounts }, none)
    | none =>
      retrainAndSave stem replacements stopwords entities classifier2
        interesting_articles blacklist
  | none =>
    retrainAndSave stem replacements stopwords entities classifier
      interesting_articles blacklist

/-- The concrete input of the normalization-determinism property. -/
def testInput : String := "It" ++ String.singleton apos ++ "s a test!! 123"

/-- A parsed `classifier_counts` blob holding one stale entry
(`{"interesting": {"x": 5}, "boring": {}}`). -/
def staleBlob : Category → Feature → ℚ :=
  fun c f => if c = "interesting" ∧ f = "x" then 5 else 0

/-- An article whose two text fields are empty. -/
def emptyArticle : Article := ⟨"", ""⟩

/-- A small concrete model: categories `a`, `b` with committed frequencies
`x ↦ 3` in `a` and `x ↦ 1` in `b`. -/
def witnessModel : TextClassifier :=
  { TextClassifier.init ["a", "b"] with
    counts := fun c g => if c = "a" ∧ g = "x" then 3 else if c = "b" ∧ g = "x" then 1 else 0 }

/-! ### Theorems -/

/-- Value of the counter fold underlying `counterIadd`. -/
theorem foldl_update_add (fc : FeatureCounts) :
    ∀ (g : Feature → ℤ) (x : Feature),
      (fc.foldl (fun acc kv => Function.update acc kv.1 (acc kv.1 + kv.2)) g) x
        = g x + itemsSum fc x := by
  induction fc with
  | nil => intro g x; simp [itemsSum]
  | cons kv rest ih =>
    intro g x
    rw [List.foldl_cons, ih]
    by_cases hx : x = kv.1
    · subst hx; simp [Function.update_same, itemsSum]; ring
    · rw [Function.update_noteq hx]
      have : ¬(kv.1 = x) := fun e => hx e.symm
      simp [itemsSum, this]

/-- `counterIadd` value-wise: clamped addition of the items. -/
theorem counterIadd_apply (g : Feature → ℤ) (fc : FeatureCounts) (x : Feature) :
    counterIadd g fc x = max (g x + itemsSum fc x) 0 := by
  simp only [counterIadd, foldl_update_add]
  rcases le_or_lt (g x + itemsSum fc x) 0 with h | h
  · rw [if_neg (not_lt.mpr h), max_eq_right h]
  · rw [if_pos h, max_eq_left h.le]

/-- A `FeatureCounts` with non-negative entries has non-negative occurrence
totals. -/
theorem itemsSum_nonneg {fc : FeatureCounts} (h : ∀ kv ∈ fc, 0 ≤ kv.2) (f : Feature) :
    0 ≤ itemsSum fc f := by
  refine List.sum_nonneg ?_
  intro x hx
  obtain ⟨kv, hkv, rfl⟩ := List.mem_map.mp hx
  by_cases hk : kv.1 = f
  · simpa [hk] using h kv hkv
  · simp [hk]

/-- `add_samples` never touches the committed state or the category list. -/
theorem add_samples_fields (samples : List (FeatureCounts × Category)) :
    ∀ st : TextClassifier,
      (st.add_samples samples).categories = st.categories ∧
      (st.add_samples samples).counts = st.counts ∧
      (st.add_samples samples).sample_counts = st.sample_counts := by
  induction samples with
  | nil => intro st; exact ⟨rfl, rfl, rfl⟩
  | cons p rest ih =>
    intro st
    exact ih (st.add_sample p.1 p.2)

/-- Staging a batch of non-negative samples into category `c` accumulates the
occurrence totals in `StagedChange` (no clamping fires) and adds the batch
size to the staged sample-count delta. -/
theorem add_samples_staged (l : List FeatureCounts) (c : Category) (f : Feature) :
    ∀ st : TextClassifier, (∀ fc ∈ l, ∀ kv ∈ fc, 0 ≤ kv.2) →
      0 ≤ st.counts_change c f →
      (st.add_samples (l.map (fun fc => (fc, c)))).counts_change c f
          = st.counts_change c f + occTotal l f ∧
      (st.add_samples (l.map (fun fc => (fc, c)))).sample_counts_change c
          = st.sample_counts_change c + l.length := by
  induction l with
  | nil => intro st _ _; simp [TextClassifier.add_samples, occTotal]
  | cons fc rest ih =>
    intro st hnn h0
    have hfc : ∀ kv ∈ fc, 0 ≤ kv.2 := hnn fc (List.mem_cons_self fc rest)
    have hrest : ∀ g ∈ rest, ∀ kv ∈ g, 0 ≤ kv.2 :=
      fun g hg => hnn g (List.mem_cons_of_mem fc hg)
    have hstep : (st.add_sample fc c).counts_change c f
        = st.counts_change c f + itemsSum fc f := by
      have hupd : (st.add_sample fc c).counts_change c
          = counterIadd (st.counts_change c) fc := by
        show Function.update st.counts_change c (counterIadd (st.counts_change c) fc) c = _
        rw [Function.update_same]
      rw [hupd, counterIadd_apply]
      exact max_eq_left (add_nonneg h0 (itemsSum_nonneg hfc f))
    have hstep2 : (st.add_sample fc c).sample_counts_change c
        = st.sample_counts_change c + 1 := by
      show Function.update st.sample_counts_change c (st.sample_counts_change c + 1) c = _
      rw [Function.update_same]
    have h0' : 0 ≤ (st.add_sample fc c).counts_change c f := by
      rw [hstep]
      exact add_nonneg h0 (itemsSum_nonneg hfc f)
    have hmain := ih (st.add_sample fc c) hrest h0'
    constructor
    · rw [show (st.add_samples ((fc :: rest).map (fun fc => (fc, c)))) =
          ((st.add_sample fc c).add_samples (rest.map (fun fc => (fc, c)))) from rfl]
      rw [hmain.1, hstep]
      simp [occTotal]
      ring
    · rw [show (st.add_samples ((fc :: rest).map (fun fc => (fc, c)))) =
          ((st.add_sample fc c).add_samples (rest.map (fun fc => (fc, c)))) from rfl]
      rw [hmain.2, hstep2]
      simp only [List.length_cons]
      push_cast
      ring

/-- Inversion of one `apply_changes` iteration: the new total is non-zero, the
category's tables are rescaled-and-updated (`r == 0` exactly when the old
count is zero), its staged state is cleared, and every other category is
untouched. -/
theorem applyCategory_some {s s' : TextClassifier} {c : Category}
    (h : applyCategory s c = some s') :
    s.sample_counts c + s.sample_counts_change c ≠ 0 ∧
    s'.categories = s.categories ∧
    s'.sample_counts c = s.sample_counts c + s.sample_counts_change c ∧
    s'.sample_counts_change c = 0 ∧
    (∀ f, s'.counts_change c f = 0) ∧
    (∀ f, s'.counts c f =
      (if s.sample_counts c = 0 then s.counts c f
       else s.counts c f * ((s.sample_counts c : ℚ)
         / ((s.sample_counts c + s.sample_counts_change c : ℤ) : ℚ)))
      + (s.counts_change c f : ℚ) / ((s.sample_counts c + s.sample_counts_change c : ℤ) : ℚ)) ∧
    (∀ d, d ≠ c → s'.counts d = s.counts d ∧ s'.sample_counts d = s.sample_counts d ∧
      s'.counts_change d = s.counts_change d ∧
      s'.sample_counts_change d = s.sample_counts_change d) := by
  by_cases hz : s.sample_counts c + s.sample_counts_change c = 0
  · simp only [applyCategory] at h
    rw [if_pos hz] at h
    cases h
  · simp only [applyCategory] at h
    rw [if_neg hz] at h
    obtain rfl := (Option.some.inj h).symm
    have hcast : ((s.sample_counts c + s.sample_counts_change c : ℤ) : ℚ) ≠ 0 := by
      exact_mod_cast hz
    refine ⟨hz, rfl, Function.update_same c _ _, Function.update_same c _ _, ?_, ?_, ?_⟩
    · intro f
      show Function.update s.counts_change c (fun _ => 0) c f = 0
      rw [Function.update_same]
    · intro f
      show Function.update s.counts c _ c f = _
      rw [Function.update_same]
      by_cases h0 : s.sample_counts c = 0
      · have hr : ((s.sample_counts c : ℚ)
            / ((s.sample_counts c + s.sample_counts_change c : ℤ) : ℚ)) = 0 := by
          rw [h0]; simp
        rw [if_pos h0]
        simp only [hr, ne_eq, not_true_eq_false, if_false]
      · have hr : ((s.sample_counts c : ℚ)
            / ((s.sample_counts c + s.sample_counts_change c : ℤ) : ℚ)) ≠ 0 := by
          refine div_ne_zero ?_ hcast
          exact_mod_cast h0
        rw [if_neg h0, if_pos hr]
    · intro d hd
      have hdc : d ≠ c := hd
      exact ⟨Function.update_noteq hdc _ _, Function.update_noteq hdc _ _,
        Function.update_noteq hdc _ _, Function.update_noteq hdc _ _⟩

/-- Characterization of a successful `apply_changes` over a duplicate-free
category list: each listed category is committed from its own pre-state, and
unlisted categories are untouched. -/
theorem applyChangesGo_spec :
    ∀ (l : List Category) (s s' : TextClassifier),
      applyChangesGo l s = some s' → l.Nodup →
      (s'.categories = s.categories) ∧
      (∀ c, c ∉ l → s'.counts c = s.counts c ∧ s'.sample_counts c = s.sample_counts c ∧
        s'.counts_change c = s.counts_change c ∧
        s'.sample_counts_change c = s.sample_counts_change c) ∧
      (∀ c, c ∈ l →
        s.sample_counts c + s.sample_counts_change c ≠ 0 ∧
        s'.sample_counts c = s.sample_counts c + s.sample_counts_change c ∧
        s'.sample_counts_change c = 0 ∧
        (∀ f, s'.counts_change c f = 0) ∧
        (∀ f, s'.counts c f =
          (if s.sample_counts c = 0 then s.counts c f
           else s.counts c f * ((s.sample_counts c : ℚ)
             / ((s.sample_counts c + s.sample_counts_change c : ℤ) : ℚ)))
          + (s.counts_change c f : ℚ)
            / ((s.sample_counts c + s.sample_counts_change c : ℤ) : ℚ))) := by
  intro l
  induction l with
  | nil =>
    intro s s' h _
    rw [applyChangesGo] at h
    obtain rfl := Option.some.inj h
    exact ⟨rfl, fun c _ => ⟨rfl, rfl, rfl, rfl⟩, fun c hc => absurd hc (List.not_mem_nil c)⟩
  | cons c rest ih =>
    intro s s' h hnd
    rw [applyChangesGo] at h
    rcases happ : applyCategory s c with _ | s1
    · rw [happ] at h; cases h
    · rw [happ] at h
      have hcr : c ∉ rest := (List.nodup_cons.mp hnd).1
      have hndr : rest.Nodup := (List.nodup_cons.mp hnd).2
      obtain ⟨hnz, hcats1, hsc1, hscc1, hcc1, hcounts1, hframe1⟩ := applyCategory_some happ
      obtain ⟨hcats2, hframe2, hmem2⟩ := ih s1 s' h hndr
      refine ⟨hcats2.trans hcats1, ?_, ?_⟩
      · intro d hd
        have hdc : d ≠ c := fun e => hd (e ▸ List.mem_cons_self c rest)
        have hdr : d ∉ rest := fun m => hd (List.mem_cons_of_mem c m)
        obtain ⟨f1, f2, f3, f4⟩ := hframe2 d hdr
        obtain ⟨g1, g2, g3, g4⟩ := hframe1 d hdc
        exact ⟨f1.trans g1, f2.trans g2, f3.trans g3, f4.trans g4⟩
      · intro d hd
        rcases List.mem_cons.mp hd with rfl | hdr
        · obtain ⟨f1, f2, f3, f4⟩ := hframe2 d hcr
          refine ⟨hnz, f2.trans hsc1, f4.trans hscc1, ?_, ?_⟩
          · intro f; rw [f3]; exact hcc1 f
          · intro f
            have := congrFun f1 f
            rw [this]
            exact hcounts1 f
        · have hdc : d ≠ c := fun e => hcr (e ▸ hdr)
          obtain ⟨g1, g2, g3, g4⟩ := hframe1 d hdc
          obtain ⟨m1, m2, m3, m4, m5⟩ := hmem2 d hdr
          rw [g2, g4] at m1
          refine ⟨m1, ?_, m3, ?_, ?_⟩
          · rw [m2, g2, g4]
          · intro f; exact m4 f
          · intro f
            rw [m5 f, g1, g2, g3, g4]

/-- A text containing no `&` is left unchanged by entity unescaping. -/
theorem unescapeCore_no_amp (entities : List (String × ℕ)) :
    ∀ l : List Char, '&' ∉ l → unescapeCore entities none l = l
  | [], _ => rfl
  | c :: rest, h => by
    have hc : ¬(c = '&') := fun e => h (e ▸ List.mem_cons_self c rest)
    have hr : '&' ∉ rest := fun m => h (List.mem_cons_of_mem c m)
    simp only [unescapeCore, if_neg hc]
    exact congrArg (c :: ·) (unescapeCore_no_amp entities rest hr)

/-- Claim C1, refuted by the code: on a freshly constructed model with nothing
staged, every category has committed `sample_counts` plus staged delta equal
to `0`, and `apply_changes` evaluates `r = old_count / new_sample_count` with
`new_sample_count == 0` — a `ZeroDivisionError` (modelled `none`) instead of
the claimed short-circuit that completes normally. -/
theorem apply_changes_zero_total_raises :
    (TextClassifier.init ["interesting", "boring"]).apply_changes = none := rfl

unseal Rat.add Rat.mul Rat.inv Rat.sub in
/-- Claim C2, refuted by the code: starting from a state with one committed
sample `{x: 1}` in category `a`, staging `{y: 1}` with `add_sample`, applying,
then staging the identical sample with `remove_sample` and applying leaves the
frequency of `y` at `1`, not at its pre-add value `0` (the staged negative
delta was stripped by `Counter.__isub__`, so `apply_changes` only rescaled);
the `sample_count` does return to `1`. -/
theorem add_remove_apply_asymmetry :
    (((TextClassifier.init ["a"]).add_sample [("x", 1)] "a").apply_changes.bind (fun s1 =>
      ((s1.add_sample [("y", 1)] "a").apply_changes.bind (fun s2 =>
        ((s2.remove_sample [("y", 1)] "a").apply_changes.map (fun s3 =>
          (s1.counts "a" "y", s3.counts "a" "y", s1.sample_counts "a", s3.sample_counts "a")))))))
      = some (0, 1, 1, 1) := by decide

/-- Claim C3, refuted by the code: `remove_sample` of `{x: 1}` on a category
with an empty `StagedChange` leaves the staged entry of `x` at `0` (absent) —
`Counter.__isub__` keeps only positive entries, so the claimed signed delta
`-1` is never stored; the staged sample-count delta does become `-1`. -/
theorem remove_sample_staged_clamped :
    ((TextClassifier.init ["a"]).remove_sample [("x", 1)] "a").counts_change "a" "x" = 0 ∧
    ((TextClassifier.init ["a"]).remove_sample [("x", 1)] "a").sample_counts_change "a" = -1 := by
  decide

unseal Rat.add Rat.mul Rat.inv Rat.sub in
/-- Claim C7, refuted by the code: when the counts blob parses but the
sample-counts blob is absent, the `except ValueError` branch retrains the
already-mutated classifier — the stale frequency `x = 5` from the blob
survives retraining (the claim requires an empty FrequencyTable) and is
persisted; moreover with both blobs absent and an empty corpus, retraining
raises `ZeroDivisionError` in `apply_changes` and persists nothing. -/
theorem loadClassifier_partial_parse_stale :
    (loadClassifier id [] [] [] (some staleBlob) none [emptyArticle] [emptyArticle]).map
      (fun r => (r.1.counts "interesting" "x", r.1.sample_counts "interesting", r.2.isSome))
      = some (5, 1, true) ∧
    loadClassifier id [] [] [] none none [] [] = none :=
  ⟨by decide, rfl⟩

/-- Claim C8: `classify_features` of an empty `FeatureCounts` returns an empty
result Counter and performs no division by the zero `length` (the division
loop iterates over the keys of the empty result). -/
theorem classify_features_empty_input (st : TextClassifier) :
    st.classify_features [] = some ⟨[], fun _ => 0⟩ := rfl

/-- Claim C9: `prepare_words` is a pure function of its input and
configuration (two runs agree), and on `"It's a test!! 123"` with stopword
list `["a"]` and an empty irregular-word table the token sequence before
stemming is `["it", "test"]` — the contraction `it's` was reduced to `it`, the
stopword `a` and the digit run `123` were removed — so the final output is the
stemmed pair `[stem "it", stem "test"]`, for any stemmer and entity table. -/
theorem prepare_words_normalization (stem : String → String)
    (entities : List (String × ℕ)) :
    (∀ t : String, TextClassifier.prepare_words stem [] ["a"] entities t =
      TextClassifier.prepare_words stem [] ["a"] entities t) ∧
    TextClassifier.tokenize
      (TextClassifier.apply_regexes ["a"] (TextClassifier.unescape entities (pyLower testInput)))
      = ["it", "test"] ∧
    TextClassifier.prepare_words stem [] ["a"] entities testInput = [stem "it", stem "test"] := by
  have hu : TextClassifier.unescape entities (pyLower testInput) = pyLower testInput := by
    show String.mk (unescapeCore entities none (pyLower testInput).toList) = pyLower testInput
    rw [unescapeCore_no_amp entities (pyLower testInput).toList (by decide)]
    rfl
  have h2 : TextClassifier.tokenize
      (TextClassifier.apply_regexes ["a"] (TextClassifier.unescape entities (pyLower testInput)))
      = ["it", "test"] := by
    rw [hu]; decide
  refine ⟨fun t => rfl, h2, ?_⟩
  show TextClassifier.replace_irregular_words stem []
      (TextClassifier.tokenize (TextClassifier.apply_regexes ["a"]
        (TextClassifier.unescape entities (pyLower testInput)))) = _
  rw [h2]
  rfl

/-- Claim C10: `add_sample` and `remove_sample` only touch the staged
`_counts_change` / `_sample_counts_change`; the committed `counts` and
`sample_counts` of every category are untouched. -/
theorem stage_ops_frame (st : TextClassifier) (features : FeatureCounts) (category : Category) :
    (st.add_sample features category).counts = st.counts ∧
    (st.add_sample features category).sample_counts = st.sample_counts ∧
    (st.remove_sample features category).counts = st.counts ∧
    (st.remove_sample features category).sample_counts = st.sample_counts :=
  ⟨rfl, rfl, rfl, rfl⟩

/-- Claim C4: mean preservation over two committed batches.  Starting from a
state whose category `c` is fresh (empty FrequencyTable, zero `sample_count`,
nothing staged), staging batch `l1` (non-negative counts) with `add_samples`
then applying, then staging batch `l2` and applying, puts the committed
frequency of `f` at `(k1 + k2) / (n1 + n2)` exactly over `ℚ`, where `ki` is
the number of occurrences of `f` in batch `i` (`occTotal`) and `ni` the batch
size. -/
theorem apply_mean_preservation (st : TextClassifier) (c : Category) (f : Feature)
    (l1 l2 : List FeatureCounts) (v : ℚ)
    (hc : c ∈ st.categories) (hnd : st.categories.Nodup)
    (hcounts0 : ∀ g, st.counts c g = 0)
    (hsc0 : st.sample_counts c = 0)
    (hstaged0 : ∀ g, st.counts_change c g = 0)
    (hscc0 : st.sample_counts_change c = 0)
    (hl1 : l1 ≠ []) (hl2 : l2 ≠ [])
    (hnn1 : ∀ fc ∈ l1, ∀ kv ∈ fc, 0 ≤ kv.2)
    (hnn2 : ∀ fc ∈ l2, ∀ kv ∈ fc, 0 ≤ kv.2)
    (h : ((st.add_samples (l1.map (fun fc => (fc, c)))).apply_changes.bind (fun s1 =>
          ((s1.add_samples (l2.map (fun fc => (fc, c)))).apply_changes.map (fun s2 =>
            s2.counts c f)))) = some v) :
    v = ((occTotal l1 f + occTotal l2 f : ℤ) : ℚ)
        / ((l1.length : ℚ) + (l2.length : ℚ)) := by
  obtain ⟨s1, h1, h2⟩ := Option.bind_eq_some.mp h
  obtain ⟨s2, h2a, hv⟩ := Option.map_eq_some'.mp h2
  have hl1len : l1.length ≠ 0 := fun e => hl1 (List.length_eq_zero.mp e)
  have hl1lenZ : (l1.length : ℤ) ≠ 0 := by exact_mod_cast hl1len
  -- batch 1
  have hA1 := add_samples_fields (l1.map (fun fc => (fc, c))) st
  have hA1st := add_samples_staged l1 c f st hnn1 (le_of_eq (hstaged0 f).symm)
  have hndA1 : (st.add_samples (l1.map (fun fc => (fc, c)))).categories.Nodup := by
    rw [hA1.1]; exact hnd
  have hcA1 : c ∈ (st.add_samples (l1.map (fun fc => (fc, c)))).categories := by
    rw [hA1.1]; exact hc
  obtain ⟨hs1cats, _, hmem1⟩ :=
    applyChangesGo_spec (st.add_samples (l1.map (fun fc => (fc, c)))).categories
      (st.add_samples (l1.map (fun fc => (fc, c)))) s1 h1 hndA1
  obtain ⟨hnz1, hs1sc, hs1scc, hs1cc, hs1counts⟩ := hmem1 c hcA1
  have hA1sc : (st.add_samples (l1.map (fun fc => (fc, c)))).sample_counts c = 0 := by
    rw [congrFun hA1.2.2 c, hsc0]
  have hA1scc : (st.add_samples (l1.map (fun fc => (fc, c)))).sample_counts_change c
      = (l1.length : ℤ) := by
    rw [hA1st.2, hscc0]; ring
  have hA1cc : (st.add_samples (l1.map (fun fc => (fc, c)))).counts_change c f
      = occTotal l1 f := by
    rw [hA1st.1, hstaged0 f]; ring
  have hA1counts : (st.add_samples (l1.map (fun fc => (fc, c)))).counts c f = 0 := by
    rw [congrFun (congrFun hA1.2.1 c) f, hcounts0 f]
  have hs1scv : s1.sample_counts c = (l1.length : ℤ) := by
    rw [hs1sc, hA1sc, hA1scc]; ring
  have hs1cv : s1.counts c f = ((occTotal l1 f : ℤ) : ℚ) / (((l1.length : ℤ)) : ℚ) := by
    rw [hs1counts f, if_pos hA1sc, hA1counts, hA1cc, hA1sc, hA1scc]
    push_cast
    ring
  -- batch 2
  have hA2 := add_samples_fields (l2.map (fun fc => (fc, c))) s1
  have hA2st := add_samples_staged l2 c f s1 hnn2 (le_of_eq (hs1cc f).symm)
  have hndA2 : (s1.add_samples (l2.map (fun fc => (fc, c)))).categories.Nodup := by
    rw [hA2.1, hs1cats, hA1.1]; exact hnd
  have hcA2 : c ∈ (s1.add_samples (l2.map (fun fc => (fc, c)))).categories := by
    rw [hA2.1, hs1cats, hA1.1]; exact hc
  obtain ⟨_, _, hmem2⟩ :=
    applyChangesGo_spec (s1.add_samples (l2.map (fun fc => (fc, c)))).categories
      (s1.add_samples (l2.map (fun fc => (fc, c)))) s2 h2a hndA2
  obtain ⟨hnz2, _, _, _, hs2counts⟩ := hmem2 c hcA2
  have hA2sc : (s1.add_samples (l2.map (fun fc => (fc, c)))).sample_counts c
      = (l1.length : ℤ) := by
    rw [congrFun hA2.2.2 c, hs1scv]
  have hA2scc : (s1.add_samples (l2.map (fun fc => (fc, c)))).sample_counts_change c
      = (l2.length : ℤ) := by
    rw [hA2st.2, hs1scc]; ring
  have hA2cc : (s1.add_samples (l2.map (fun fc => (fc, c)))).counts_change c f
      = occTotal l2 f := by
    rw [hA2st.1, hs1cc f]; ring
  have hA2counts : (s1.add_samples (l2.map (fun fc => (fc, c)))).counts c f
      = ((occTotal l1 f : ℤ) : ℚ) / (((l1.length : ℤ)) : ℚ) := by
    rw [congrFun (congrFun hA2.2.1 c) f, hs1cv]
  have hsc2ne : (s1.add_samples (l2.map (fun fc => (fc, c)))).sample_counts c ≠ 0 := by
    rw [hA2sc]; exact hl1lenZ
  have q1 : ((l1.length : ℚ)) ≠ 0 := by exact_mod_cast hl1len
  have q1pos : (0 : ℚ) < l1.length := by
    exact_mod_cast Nat.pos_of_ne_zero hl1len
  have q12 : ((l1.length : ℚ) + (l2.length : ℚ)) ≠ 0 := by
    have h2nn : (0 : ℚ) ≤ l2.length := by positivity
    exact ne_of_gt (add_pos_of_pos_of_nonneg q1pos h2nn)
  have hvv : s2.counts c f = v := hv
  rw [← hvv, hs2counts f, if_neg hsc2ne, hA2counts, hA2cc, hA2sc, hA2scc]
  push_cast
  field_simp

unseal Rat.add Rat.mul Rat.inv Rat.sub in
/-- Witness for `apply_mean_preservation`: batches `[{x: 2}]` and
`[{x: 1}, {y: 3}]` into the fresh single-category model give the frequency
`(2 + 1) / (1 + 2) = 1` for `x`. -/
theorem apply_mean_preservation_witness :
    (1 : ℚ) = ((occTotal [[("x", 2)]] "x" + occTotal [[("x", 1)], [("y", 3)]] "x" : ℤ) : ℚ)
      / ((([[("x", 2)]] : List FeatureCounts).length : ℚ)
          + (([[("x", 1)], [("y", 3)]] : List FeatureCounts).length : ℚ)) :=
  apply_mean_preservation (TextClassifier.init ["a"]) "a" "x"
    [[("x", 2)]] [[("x", 1)], [("y", 3)]] 1
    (by decide) (by decide) (fun g => rfl) rfl (fun g => rfl) rfl
    (by decide) (by decide) (by decide) (by decide) (by decide)

/-- Looking up a key of a key-indexed pair list built over the category list. -/
theorem lookup_map_pair :
    ∀ (l : List Category) (g : Category → ℚ) (c : Category), c ∈ l →
      (l.map (fun d => (d, g d))).lookup c = some (g c) := by
  intro l
  induction l with
  | nil => intro g c hc; exact absurd hc (List.not_mem_nil c)
  | cons d rest ih =>
    intro g c hc
    by_cases hcd : d = c
    · subst hcd
      simp [List.lookup]
    · have hcrest : c ∈ rest := by
        rcases List.mem_cons.mp hc with e | e
        · exact absurd e.symm hcd
        · exact e
      have hbeq : (c == d) = false := beq_eq_false_iff_ne.mpr (fun e => hcd e.symm)
      simp only [List.map_cons, List.lookup, hbeq]
      exact ih g c hcrest

/-- `classify_feature` on a model with at least one category returns a
distribution agreeing with the spec-side `specFeatureDist` on every
category. -/
theorem classify_feature_eval (st : TextClassifier) (f : Feature)
    (hne : st.categories ≠ []) :
    ∃ p, st.classify_feature f = some p ∧
      ∀ c ∈ st.categories, p c = specFeatureDist st f c := by
  have hlen : st.categories.length ≠ 0 := fun e => hne (List.length_eq_zero.mp e)
  have hmaps : ((st.categories.map (fun category => (category, st.counts category f))).map
      (fun kv => kv.2)) = st.categories.map (fun d => st.counts d f) := by
    rw [List.map_map]; rfl
  simp only [TextClassifier.classify_feature, hmaps]
  by_cases hS : (st.categories.map (fun d => st.counts d f)).sum = 0
  · rw [if_pos hS, if_neg hlen]
    refine ⟨_, rfl, ?_⟩
    intro c hc
    simp only [specFeatureDist]
    rw [if_pos hS]
  · rw [if_neg hS]
    refine ⟨_, rfl, ?_⟩
    intro c hc
    rw [lookup_map_pair st.categories (fun d => st.counts d f) c hc]
    simp only [specFeatureDist]
    rw [if_neg hS]

/-- Sum of a constant map. -/
theorem listSumMapConst {α : Type} (l : List α) (q : ℚ) :
    (l.map (fun _ => q)).sum = l.length * q := by
  induction l with
  | nil => simp
  | cons a rest ih => simp [ih]; ring

/-- Sum of a pointwise addition. -/
theorem listSumMapAdd {α : Type} (l : List α) (f g : α → ℚ) :
    (l.map (fun x => f x + g x)).sum = (l.map f).sum + (l.map g).sum := by
  induction l with
  | nil => simp
  | cons a rest ih => simp [ih]; ring

/-- Sum of a pointwise division. -/
theorem listSumMapDiv {α : Type} (l : List α) (g : α → ℚ) (q : ℚ) :
    (l.map (fun c => g c / q)).sum = (l.map g).sum / q := by
  induction l with
  | nil => simp
  | cons a rest ih => simp [ih]; ring

/-- Exchange of two finite list sums. -/
theorem listSumComm {α β : Type} (l1 : List α) (l2 : List β) (g : α → β → ℚ) :
    (l1.map (fun c => (l2.map (g c)).sum)).sum
      = (l2.map (fun kv => (l1.map (fun c => g c kv)).sum)).sum := by
  induction l1 with
  | nil =>
    simp only [List.map_nil, List.sum_nil]
    rw [listSumMapConst]
    ring
  | cons a rest ih =>
    simp only [List.map_cons, List.sum_cons, ih]
    rw [listSumMapAdd]

/-- Casting an integer list sum into the rationals. -/
theorem listSumCast (l : List (Feature × ℤ)) :
    (l.map (fun kv => ((kv.2 : ℤ) : ℚ))).sum = (((l.map (fun kv => kv.2)).sum : ℤ) : ℚ) := by
  induction l with
  | nil => simp
  | cons a rest ih => simp [ih]

/-- The spec-side distribution is non-negative on categories of a non-negative
model. -/
theorem specFeatureDist_nonneg (st : TextClassifier) (f : Feature) (c : Category)
    (hcnt : ∀ d ∈ st.categories, ∀ g, 0 ≤ st.counts d g) (hc : c ∈ st.categories) :
    0 ≤ specFeatureDist st f c := by
  simp only [specFeatureDist]
  by_cases hS : (st.categories.map (fun d => st.counts d f)).sum = 0
  · rw [if_pos hS]
    exact div_nonneg zero_le_one (by positivity)
  · rw [if_neg hS]
    have hSnn : 0 ≤ (st.categories.map (fun d => st.counts d f)).sum := by
      refine List.sum_nonneg ?_
      intro x hx
      obtain ⟨d, hd, rfl⟩ := List.mem_map.mp hx
      exact hcnt d hd f
    exact div_nonneg (hcnt c hc f) hSnn

/-- The spec-side distribution is at most one on categories of a non-negative
model. -/
theorem specFeatureDist_le_one (st : TextClassifier) (f : Feature) (c : Category)
    (hne : st.categories ≠ [])
    (hcnt : ∀ d ∈ st.categories, ∀ g, 0 ≤ st.counts d g) (hc : c ∈ st.categories) :
    specFeatureDist st f c ≤ 1 := by
  simp only [specFeatureDist]
  have hlen : (1 : ℚ) ≤ (st.categories.length : ℚ) := by
    have h1 : 0 < st.categories.length := List.length_pos.mpr hne
    exact_mod_cast h1
  by_cases hS : (st.categories.map (fun d => st.counts d f)).sum = 0
  · rw [if_pos hS]
    rw [div_le_one (lt_of_lt_of_le zero_lt_one hlen)]
    exact hlen
  · rw [if_neg hS]
    have hSnn : 0 ≤ (st.categories.map (fun d => st.counts d f)).sum := by
      refine List.sum_nonneg ?_
      intro x hx
      obtain ⟨d, hd, rfl⟩ := List.mem_map.mp hx
      exact hcnt d hd f
    have hSpos : 0 < (st.categories.map (fun d => st.counts d f)).sum :=
      lt_of_le_of_ne hSnn (Ne.symm hS)
    rw [div_le_one hSpos]
    refine List.single_le_sum ?_ _ ?_
    · intro x hx
      obtain ⟨d, hd, rfl⟩ := List.mem_map.mp hx
      exact hcnt d hd f
    · exact List.mem_map.mpr ⟨c, hc, rfl⟩

/-- The spec-side distribution sums to one over the category list. -/
theorem specFeatureDist_sum (st : TextClassifier) (f : Feature)
    (hne : st.categories ≠ []) :
    (st.categories.map (fun c => specFeatureDist st f c)).sum = 1 := by
  have hlen : (st.categories.length : ℚ) ≠ 0 := by
    have h1 : st.categories.length ≠ 0 := fun e => hne (List.length_eq_zero.mp e)
    exact_mod_cast h1
  by_cases hS : (st.categories.map (fun d => st.counts d f)).sum = 0
  · have hmap : (st.categories.map (fun c => specFeatureDist st f c))
        = st.categories.map (fun _ => 1 / (st.categories.length : ℚ)) := by
      refine List.map_congr_left ?_
      intro c hc
      simp only [specFeatureDist]
      rw [if_pos hS]
    rw [hmap, listSumMapConst]
    field_simp
  · have hmap : (st.categories.map (fun c => specFeatureDist st f c))
        = st.categories.map
            (fun c => st.counts c f / (st.categories.map (fun d => st.counts d f)).sum) := by
      refine List.map_congr_left ?_
      intro c hc
      simp only [specFeatureDist]
      rw [if_neg hS]
    rw [hmap, listSumMapDiv, div_self hS]

/-- Characterization of the `classify_features` accumulation loop on a model
with at least one category: it never raises, the length accumulator adds the
signed counts, the result Counter is touched exactly when some count is
positive, and every category's running total accumulates each feature's
distribution `max count 0` times. -/
theorem classifyLoop_spec (st : TextClassifier) (hne : st.categories ≠ []) :
    ∀ (fs : List (Feature × ℤ)) (len : ℤ) (acc : Category → ℚ) (t : Bool),
      ∃ out : ℤ × (Category → ℚ) × Bool,
        classifyLoop st fs len acc t = some out ∧
        out.1 = len + (fs.map (fun kv => kv.2)).sum ∧
        out.2.2 = (t || fs.any (fun kv => decide (0 < kv.2))) ∧
        ∀ c ∈ st.categories,
          out.2.1 c = acc c
            + (fs.map (fun kv => ((max kv.2 0 : ℤ) : ℚ) * specFeatureDist st kv.1 c)).sum := by
  intro fs
  induction fs with
  | nil =>
    intro len acc t
    exact ⟨(len, acc, t), rfl, by simp, by simp, fun c hc => by simp⟩
  | cons kv rest ih =>
    obtain ⟨f0, n0⟩ := kv
    intro len acc t
    obtain ⟨p, hp, hpc⟩ := classify_feature_eval st f0 hne
    obtain ⟨out, hout, h1, h2, h3⟩ := ih (len + n0)
      (fun k => acc k + ((max n0 0 : ℤ) : ℚ) * p k) (t || decide (0 < n0))
    refine ⟨out, ?_, ?_, ?_, ?_⟩
    · simp only [classifyLoop, hp]
      exact hout
    · rw [h1]
      simp only [List.map_cons, List.sum_cons]
      ring
    · rw [h2]
      simp only [List.any_cons, Bool.or_assoc]
    · intro c hc
      rw [h3 c hc, hpc c hc]
      simp only [List.map_cons, List.sum_cons]
      ring

/-- Claim C5: per-feature scoring.  With at least one category: when the total
committed frequency of `f` over all categories is zero, `classify_feature`
returns the uniform `1/|categories|` at every category; otherwise it returns
that category's share `FrequencyTable[c].get(f, 0) / sum`. -/
theorem classify_feature_no_evidence_shares (st : TextClassifier) (f : Feature)
    (c : Category) (hne : st.categories ≠ []) (hc : c ∈ st.categories) :
    (st.classify_feature f).map (fun p => p c) =
      some (if (st.categories.map (fun d => st.counts d f)).sum = 0
            then 1 / (st.categories.length : ℚ)
            else st.counts c f / (st.categories.map (fun d => st.counts d f)).sum) := by
  obtain ⟨p, hp, hpc⟩ := classify_feature_eval st f hne
  rw [hp, Option.map_some']
  exact congrArg some (hpc c hc)

/-- Witness for `classify_feature_no_evidence_shares` on the concrete
two-category model (shares `3/4` and `1/4` for the seen feature `x`). -/
theorem classify_feature_no_evidence_shares_witness :
    (witnessModel.classify_feature "x").map (fun p => p "a") =
      some (if (witnessModel.categories.map (fun d => witnessModel.counts d "x")).sum = 0
            then 1 / (witnessModel.categories.length : ℚ)
            else witnessModel.counts "a" "x"
              / (witnessModel.categories.map (fun d => witnessModel.counts d "x")).sum) :=
  classify_feature_no_evidence_shares witnessModel "x" "a" (by decide) (by decide)

/-- Claim C6: `classify_features` on a non-empty `FeatureCounts` (total
occurrence count positive, entries non-negative) over a model with
non-negative tables returns a weight for every category; each weight lies in
`[0, 1]`, the weights sum to 1 over the category list, and each weight is the
occurrence-weighted vote average of the per-feature distributions. -/
theorem classify_features_vote_average (st : TextClassifier) (fs : FeatureCounts)
    (hne : st.categories ≠ [])
    (hcnt : ∀ d ∈ st.categories, ∀ g, 0 ≤ st.counts d g)
    (hfc : ∀ kv ∈ fs, 0 ≤ kv.2)
    (htot : 0 < (fs.map (fun kv => kv.2)).sum) :
    ∃ d, st.classify_features fs = some d ∧
      d.keys = st.categories ∧
      (∀ c ∈ st.categories, 0 ≤ d.val c ∧ d.val c ≤ 1 ∧ d.val c = voteAverage st fs c) ∧
      (st.categories.map d.val).sum = 1 := by
  obtain ⟨out, hloop, hlen, htch, hval⟩ := classifyLoop_spec st hne fs 0 (fun _ => 0) false
  obtain ⟨L, A, T⟩ := out
  dsimp only at hlen htch hval
  have hany : fs.any (fun kv => decide (0 < kv.2)) = true := by
    by_contra hno
    have hall : ∀ kv ∈ fs, kv.2 = 0 := by
      intro kv hkv
      have h1 : ¬(0 < kv.2) := by
        intro hpos
        exact hno (List.any_eq_true.mpr ⟨kv, hkv, by simpa using hpos⟩)
      have h2 := hfc kv hkv
      omega
    have hzero : (fs.map (fun kv => kv.2)).sum = 0 := by
      refine List.sum_eq_zero ?_
      intro x hx
      obtain ⟨kv, hkv, rfl⟩ := List.mem_map.mp hx
      exact hall kv hkv
    omega
  have hTtrue : T = true := by rw [htch, Bool.false_or]; exact hany
  have hLv : L = (fs.map (fun kv => kv.2)).sum := by rw [hlen]; ring
  have hLne : L ≠ 0 := by omega
  have hLposQ : (0 : ℚ) < (L : ℚ) := by
    have : (0 : ℤ) < L := by omega
    exact_mod_cast this
  have hcf : st.classify_features fs = some ⟨st.categories, fun k => A k / (L : ℚ)⟩ := by
    simp only [TextClassifier.classify_features, hloop, hTtrue, if_true]
    rw [if_neg hLne]
  have hmax : ∀ c : Category,
      (fs.map (fun kv => ((max kv.2 0 : ℤ) : ℚ) * specFeatureDist st kv.1 c))
        = fs.map (fun kv => (kv.2 : ℚ) * specFeatureDist st kv.1 c) := by
    intro c
    refine List.map_congr_left ?_
    intro kv hkv
    rw [max_eq_left (hfc kv hkv)]
  have hAc : ∀ c ∈ st.categories,
      A c = (fs.map (fun kv => (kv.2 : ℚ) * specFeatureDist st kv.1 c)).sum := by
    intro c hc
    rw [hval c hc, hmax c]
    ring
  refine ⟨⟨st.categories, fun k => A k / (L : ℚ)⟩, hcf, rfl, ?_, ?_⟩
  · intro c hc
    have hnum_nonneg : 0 ≤ (fs.map (fun kv => (kv.2 : ℚ) * specFeatureDist st kv.1 c)).sum := by
      refine List.sum_nonneg ?_
      intro x hx
      obtain ⟨kv, hkv, rfl⟩ := List.mem_map.mp hx
      have hq : (0 : ℚ) ≤ (kv.2 : ℚ) := by exact_mod_cast hfc kv hkv
      exact mul_nonneg hq (specFeatureDist_nonneg st kv.1 c hcnt hc)
    have hnum_le : (fs.map (fun kv => (kv.2 : ℚ) * specFeatureDist st kv.1 c)).sum
        ≤ (fs.map (fun kv => ((kv.2 : ℤ) : ℚ))).sum := by
      refine List.sum_le_sum ?_
      intro kv hkv
      have hq : (0 : ℚ) ≤ (kv.2 : ℚ) := by exact_mod_cast hfc kv hkv
      calc (kv.2 : ℚ) * specFeatureDist st kv.1 c
          ≤ (kv.2 : ℚ) * 1 :=
            mul_le_mul_of_nonneg_left (specFeatureDist_le_one st kv.1 c hne hcnt hc) hq
        _ = (kv.2 : ℚ) := mul_one _
    have hcastsum : (fs.map (fun kv => ((kv.2 : ℤ) : ℚ))).sum = (L : ℚ) := by
      rw [listSumCast, ← hLv]
    refine ⟨?_, ?_, ?_⟩
    · show 0 ≤ A c / (L : ℚ)
      rw [hAc c hc]
      exact div_nonneg hnum_nonneg hLposQ.le
    · show A c / (L : ℚ) ≤ 1
      rw [hAc c hc, div_le_one hLposQ]
      rw [← hcastsum]
      exact hnum_le
    · show A c / (L : ℚ) = voteAverage st fs c
      simp only [voteAverage]
      rw [hAc c hc, hLv]
      rw [← listSumCast]
  · have h1 : (st.categories.map (fun k => A k / (L : ℚ)))
        = st.categories.map
            (fun k => (fs.map (fun kv => (kv.2 : ℚ) * specFeatureDist st kv.1 k)).sum / (L : ℚ)) := by
      refine List.map_congr_left ?_
      intro c hc
      rw [hAc c hc]
    show (st.categories.map (fun k => A k / (L : ℚ))).sum = 1
    rw [h1, listSumMapDiv, listSumComm]
    have h2 : (fs.map (fun kv =>
        (st.categories.map (fun c => (kv.2 : ℚ) * specFeatureDist st kv.1 c)).sum))
        = fs.map (fun kv => ((kv.2 : ℤ) : ℚ)) := by
      refine List.map_congr_left ?_
      intro kv hkv
      rw [List.sum_map_mul_left, specFeatureDist_sum st kv.1 hne, mul_one]
    rw [h2, listSumCast, ← hLv, div_self (by exact_mod_cast hLne)]

/-- Witness for `classify_features_vote_average`: a single feature occurring
twice against the fresh two-category model. -/
theorem classify_features_vote_average_witness :
    ∃ d, (TextClassifier.init ["a", "b"]).classify_features [("x", 2)] = some d ∧
      d.keys = (TextClassifier.init ["a", "b"]).categories ∧
      (∀ c ∈ (TextClassifier.init ["a", "b"]).categories,
        0 ≤ d.val c ∧ d.val c ≤ 1 ∧
        d.val c = voteAverage (TextClassifier.init ["a", "b"]) [("x", 2)] c) ∧
      ((TextClassifier.init ["a", "b"]).categories.map d.val).sum = 1 :=
  classify_features_vote_average (TextClassifier.init ["a", "b"]) [("x", 2)]
    (by decide) (fun d _ g => le_refl 0) (by decide) (by decide)
